import Mathlib

/-!
Verification of the `budget_model` core (contribution solver and recurrence
engine) against its natural-language specification.

The development shallowly embeds the Rust sources `src/contribution.rs` and
`src/frequency.rs`:

* `rust_decimal::Decimal` values are modelled as exact rationals (`Dec := ℚ`).
  Addition, subtraction and multiplication of `Decimal` are exact whenever the
  96-bit mantissa does not overflow, which holds for every concrete value
  appearing in this development, so they are modelled by the exact `ℚ`
  operations.  Division is the one rounding operation: `rust_decimal` division
  produces the exact quotient rounded at 28 fractional digits (rounding the
  last digit up when the discarded remainder is at least half), which
  `decDiv` models; `round_dp` uses banker's rounding, modelled by
  `roundDpBankers`.
* `chrono::Date<Utc>` values are modelled as `ℤ` day numbers (days since
  1970-01-01) with proleptic-Gregorian conversions `daysFromCivil` /
  `civilFromDays`.
* `f32` arithmetic in `Frequency::get_period_length` is modelled by exact
  rationals with explicit IEEE round-to-nearest-even at 24 significand bits
  (`f32round`); the inputs arising stay within the normal range.
* Rust panics (`unwrap`/`expect`/division by zero/index out of bounds) and
  non-termination of source loops are modelled by `Option`/`Except` failure
  values that are distinct from every normal result, so theorems conditioned
  on a normal result are unaffected by them.
-/

namespace BudgetModel

set_option maxRecDepth 40000

/- The Batteries `Rat` operations are `@[irreducible]`, which blocks the
evaluation of `Decidable` instances on concrete rationals; kernel reduction
is unaffected.  Restore default reducibility locally so that `decide` can
evaluate the embedding on concrete inputs. -/
attribute [local semireducible] Rat.mul Rat.add Rat.inv Rat.sub Rat.ofScientific

/-! ## Decimal model -/

abbrev Dec := ℚ

/-- Floor of a rational as an integer (kernel-computable: the denominator is
positive, so flooring is floor-division of numerator by denominator). -/
def qfloor (q : ℚ) : ℤ := Int.fdiv q.num q.den

/-- Ceiling of a rational as an integer (kernel-computable). -/
def qceil (q : ℚ) : ℤ := -qfloor (-q)

/-- Round at `s` fractional digits, rounding the last digit up when the
discarded part is at least one half (for the nonnegative values arising here
this agrees with rust_decimal's division rounding). -/
def roundHalfUpAt (s : ℕ) (q : ℚ) : ℚ :=
  ((qfloor (q * (10 : ℚ) ^ s + 1 / 2) : ℤ) : ℚ) / (10 : ℚ) ^ s

/-- `rust_decimal` division: exact quotient rounded at 28 fractional digits.
(Division by zero panics in Rust; callers in this embedding guard it.) -/
def decDiv (a b : Dec) : Dec := roundHalfUpAt 28 (a / b)

/-- `Decimal::round_dp`: banker's rounding (midpoint to even) at `s` digits. -/
def roundDpBankers (s : ℕ) (q : ℚ) : ℚ :=
  let n := q * (10 : ℚ) ^ s
  let k : ℤ := qfloor n
  let f := n - k
  let r : ℤ := if f < 1 / 2 then k else if 1 / 2 < f then k + 1
               else if k % 2 = 0 then k else k + 1
  (r : ℚ) / (10 : ℚ) ^ s

/-! ## Calendar model

Dates are day numbers (days since 1970-01-01, proleptic Gregorian, as in
`chrono`).  The conversions are the standard civil-calendar algorithms. -/

/-- Day number of the Gregorian date `(y, m, d)` (days since 1970-01-01). -/
def daysFromCivil (y m d : ℤ) : ℤ :=
  let y2 := if m ≤ 2 then y - 1 else y
  let era := Int.fdiv y2 400
  let yoe := y2 - era * 400
  let mp := if m ≤ 2 then m + 9 else m - 3
  let doy := (153 * mp + 2) / 5 + d - 1
  let doe := yoe * 365 + yoe / 4 - yoe / 100 + doy
  era * 146097 + doe - 719468

/-- Gregorian date `(year, month, day)` of a day number. -/
def civilFromDays (z0 : ℤ) : ℤ × ℤ × ℤ :=
  let z := z0 + 719468
  let era := Int.fdiv z 146097
  let doe := z - era * 146097
  let yoe := (doe - doe / 1461 + doe / 36524 - doe / 146097) / 365
  let y := yoe + era * 400
  let doy := doe - (365 * yoe + yoe / 4 - yoe / 100)
  let mp := (5 * doy + 2) / 153
  let d := doy - (153 * mp + 2) / 5 + 1
  let m := if mp < 10 then mp + 3 else mp - 9
  (if m ≤ 2 then y + 1 else y, m, d)

def yearOf (t : ℤ) : ℤ := (civilFromDays t).1
def monthOf (t : ℤ) : ℤ := (civilFromDays t).2.1
def dayOf (t : ℤ) : ℤ := (civilFromDays t).2.2

/-- `chrono`'s `weekday().number_from_monday()` (Monday = 1 … Sunday = 7);
day 0 (1970-01-01) was a Thursday. -/
def weekdayNumberFromMonday (t : ℤ) : ℤ := (t + 3) % 7 + 1

/-! ## IEEE `f32` model (used by `Frequency::get_period_length`) -/

def qpow2 (e : ℤ) : ℚ :=
  if 0 ≤ e then ((2 : ℚ) ^ e.toNat) else 1 / (2 : ℚ) ^ (-e).toNat

/-- Fueled base-2 logarithm on `ℕ` (kernel-computable; `Nat.log2` is defined
by well-founded recursion, which the kernel does not reduce). -/
def log2fuel : ℕ → ℕ → ℕ
  | 0, _ => 0
  | fuel + 1, n => if 2 ≤ n then log2fuel fuel (n / 2) + 1 else 0

/-- Floor of the base-2 logarithm of a positive rational. -/
def floorLog2 (q : ℚ) : ℤ :=
  let e0 : ℤ := (log2fuel 256 q.num.toNat : ℤ) - (log2fuel 256 q.den : ℤ)
  if q < qpow2 e0 then e0 - 1 else e0

/-- Round a rational to the nearest integer, midpoint to even. -/
def rndHalfEven (x : ℚ) : ℤ :=
  let k : ℤ := qfloor x
  let f := x - k
  if f < 1 / 2 then k else if 1 / 2 < f then k + 1
  else if k % 2 = 0 then k else k + 1

/-- Round a nonnegative rational to the nearest `f32` value
(round-to-nearest-even at 24 significand bits; inputs here are in the normal
range, so subnormals and overflow need not be modelled). -/
def f32round (q : ℚ) : ℚ :=
  if q ≤ 0 then 0
  else
    let e := floorLog2 q
    ((rndHalfEven (q * qpow2 (23 - e)) : ℤ) : ℚ) * qpow2 (e - 23)

/-! ## `src/frequency.rs` -/

/-- `MACRO_PERIOD` in the source: `(365.25 * 4.0) as u32 = 1461`, the shortest
day count guaranteed consistent across leap years. -/
def smoothPeriod : ℤ := 1461

/-- `MONTH_LENGTHS` (non-leap month lengths). -/
def MONTH_LENGTHS : List ℤ := [31, 28, 31, 30, 31, 30, 31, 31, 30, 31, 30, 31]

/-- `MONTH_LENGTHS_LEAP`. -/
def MONTH_LENGTHS_LEAP : List ℤ := [31, 29, 31, 30, 31, 30, 31, 31, 30, 31, 30, 31]

/-- `enum FrequencyMonthDay`. -/
inductive FrequencyMonthDay
  | monday | tuesday | wednesday | thursday | friday | saturday | sunday
  | day      -- the nth day of the month
  | weekday  -- the nth week day (Mon - Fri)
  | weekend  -- the nth weekend day (Sat - Sun)
deriving DecidableEq

/-- `enum Frequency`.  Integer parameters are `u32` in the source, hence `ℕ`. -/
inductive Frequency
  | once
  | daily (days : ℕ)
  | weekly (weeks : ℕ) (days : List ℕ)
  | monthlyDate (months : ℕ) (dates : List ℕ)
  | monthlyDay (months : ℕ) (nth : ℕ) (dayRule : FrequencyMonthDay)
  | yearly (years : ℕ) (months : List ℕ) (nth : Option ℕ) (dayRule : Option FrequencyMonthDay)
deriving DecidableEq

/-- `FrequencyMonthDay::get_day_of_week`. -/
def FrequencyMonthDay.get_day_of_week : FrequencyMonthDay → ℕ
  | .monday => 1 | .tuesday => 2 | .wednesday => 3 | .thursday => 4
  | .friday => 5 | .saturday => 6 | .sunday => 7
  | .day => 0 | .weekday => 0 | .weekend => 0

/-- Length of `(year, month)` as computed by `get_date`: the source uses the
Julian rule `year % 4 == 0` (`%` on `i32` and `ℤ` agree on the zero test). -/
def srcMonthLength (year month : ℤ) : ℤ :=
  if year % 4 = 0 then MONTH_LENGTHS_LEAP.getD (month - 1).toNat 31
  else MONTH_LENGTHS.getD (month - 1).toNat 31

/-- The `max_nth` computed inside `FrequencyMonthDay::get_date`
(`self.get_day_of_week() <= length - 28`, all in `u32`; `length ≥ 28` so the
subtraction does not underflow). -/
def FrequencyMonthDay.max_nth (self : FrequencyMonthDay) (year month : ℤ) : ℕ :=
  if (self.get_day_of_week : ℤ) ≤ srcMonthLength year month - 28 then 5 else 4

/-- `increment_to_weekday`.  The source adds `interval.num_days() as u32` to
`day` and then computes `(day - weekday) as u32`; if that subtraction would
underflow (reachable only for a zero-week interval) the huge resulting
duration overflows `chrono`'s date range and panics, modelled by `none`. -/
def increment_to_weekday (date : ℤ) (day interval : ℤ) : Option ℤ :=
  let weekday := weekdayNumberFromMonday date
  let day2 := if day < weekday then day + interval else day
  if day2 < weekday then none else some (date + (day2 - weekday))

/-- `FrequencyMonthDay::get_date`.  `month` must be in `1..=12` (the source
panics otherwise; the embedding extrapolates via `getD`/`daysFromCivil` and
theorems restrict the month).  For the `Day`/`Weekday`/`Weekend` "last" forms
in a `year % 4 == 0` year whose February is not a Gregorian leap February the
source's `with_day` would panic; the embedding extrapolates there too and
theorems exclude that case. -/
def FrequencyMonthDay.get_date (self : FrequencyMonthDay) (year month : ℤ) (nth0 : ℕ) :
    Option ℤ :=
  let date := daysFromCivil year month 1
  let weekday := weekdayNumberFromMonday date
  let seek_last := nth0 = 0
  let length := srcMonthLength year month
  let maxn := self.max_nth year month
  let nth : ℤ := if seek_last then maxn else nth0
  if ¬seek_last ∧ maxn < nth0 then none
  else some (match self with
    | .monday | .tuesday | .wednesday | .thursday | .friday | .saturday | .sunday =>
      ((increment_to_weekday date self.get_day_of_week 7).getD date) + 7 * (nth - 1)
    | .day =>
      if seek_last then daysFromCivil year month length
      else date + (nth - 1)
    | .weekday =>
      if seek_last then
        let offset0 := length - 29
        let lw0 := weekday + offset0
        let lw := if 7 < lw0 then lw0 - 7 else lw0
        let offset := if 5 < lw then offset0 - (lw - 5) else offset0
        daysFromCivil year month (29 + offset)
      else
        let offset := weekday - 1
        let nth2 := if 5 < nth + offset then nth + 2 else nth
        daysFromCivil year month nth2
    | .weekend =>
      if seek_last then
        let offset0 := length - 29
        let lw0 := weekday + offset0
        let lw := if 7 < lw0 then lw0 - 7 else lw0
        let offset := if lw < 6 then offset0 - lw else offset0
        daysFromCivil year month (29 + offset)
      else
        let offset := if weekday = 7 then 0 else 6 - weekday
        let nth_adjusted := nth - 1 + weekday / 7
        let weekdays := nth_adjusted / 2 * 5
        daysFromCivil year month (nth + offset + weekdays))

/-- `to_macro_periods` (argument and result routed through the `f32` model;
the final `.ceil() as i64` is exact). -/
def toSmoothPeriods (days : ℚ) : ℤ :=
  qceil (f32round (days / 1461)) * smoothPeriod

/-- `Frequency::get_period_length` in days.  The `Daily` case computes
`(days + 1) as i64` with the addition performed in `u32`, so it wraps to 0 at
`days = u32::MAX` (release semantics; a debug build panics there instead).
The month/year cases evaluate `months as f32 * 365.25 / 12.0` resp.
`years as f32 * 365.25` with `f32` rounding after every step
(365.25 = 1461/4 is exactly representable). -/
def Frequency.get_period_length : Frequency → ℤ
  | .once => 1
  | .daily days => (((days + 1) % 2 ^ 32 : ℕ) : ℤ)
  | .weekly weeks _ => 7 * weeks
  | .monthlyDate months _ =>
      toSmoothPeriods (f32round ((f32round ((f32round (months : ℚ)) * (1461 / 4))) / 12))
  | .monthlyDay months _ _ =>
      toSmoothPeriods (f32round ((f32round ((f32round (months : ℚ)) * (1461 / 4))) / 12))
  | .yearly years _ _ _ =>
      toSmoothPeriods (f32round ((f32round (years : ℚ)) * (1461 / 4)))

/-- `get_dates_for_interval`.  The source pushes `start` unconditionally and
then steps while `next <= end`; a non-positive interval loops forever when the
second candidate is still within bounds (`none` models that divergence). -/
def get_dates_for_interval (interval start e : ℤ) : Option (List ℤ) :=
  if 0 < interval then
    let n : ℕ := if e < start then 0 else ((e - start) / interval).toNat
    some ((List.range (n + 1)).map fun k => start + interval * k)
  else if start + interval ≤ e then none
  else some [start]

/-- One step of the `get_months_for_interval` loop, with fuel (the source
loop diverges only for a zero interval, and `none` also covers fuel
exhaustion, which never yields a spurious normal result). -/
def monthsForIntervalAux (interval endMonth endYear : ℤ) :
    ℕ → ℤ → ℤ → List (ℤ × ℤ) → Option (List (ℤ × ℤ))
  | 0, _, _, _ => none
  | fuel + 1, month, year, acc =>
    if year < endYear ∨ month + interval ≤ endMonth then
      let m2 := month + interval
      let m3 := if 12 < m2 then m2 - 12 else m2
      let y2 := if 12 < m2 then year + 1 else year
      monthsForIntervalAux interval endMonth endYear fuel m3 y2 (acc ++ [(m3, y2)])
    else some acc

/-- `get_months_for_interval` (list of `(month, year)` pairs). -/
def get_months_for_interval (interval : ℤ) (start e : ℤ) : Option (List (ℤ × ℤ)) :=
  let sm := monthOf start
  let sy := yearOf start
  let fuel := ((yearOf e + 2 - sy).toNat + 2) * 15 + 40
  monthsForIntervalAux interval (monthOf e) (yearOf e) fuel sm sy [(sm, sy)]

/-- Gregorian leap year (chrono's actual calendar, used by `ymd_opt`). -/
def gregLeap (y : ℤ) : Bool := (y % 4 = 0 ∧ y % 100 ≠ 0) ∨ y % 400 = 0

/-- True Gregorian month length (for `ymd_opt` validity). -/
def gregMonthLength (y m : ℤ) : ℤ :=
  if m = 2 then (if gregLeap y then 29 else 28) else MONTH_LENGTHS.getD (m - 1).toNat 31

/-- `Utc.ymd_opt(y, m, d)` yields a single date. -/
def ymdValid (y m d : ℤ) : Bool :=
  1 ≤ m ∧ m ≤ 12 ∧ 1 ≤ d ∧ d ≤ gregMonthLength y m

/-- `Frequency::get_payment_dates`.  `none` models a source panic or
divergence (empty weekly day set, zero intervals, invalid `ymd` months,
missing `day` for a `Yearly` with `nth`). -/
def Frequency.get_payment_dates (self : Frequency) (start : ℤ) (endOpt : Option ℤ) :
    Option (List ℤ) :=
  let period_end := (start - 1) + self.get_period_length
  let e := endOpt.getD period_end
  match self with
  | .once => some [start]
  | .daily days => get_dates_for_interval (days : ℤ) start e
  | .weekly weeks ds =>
    if ds = [] then none
    else
      let interval : ℤ := 7 * weeks
      let start_weekday := weekdayNumberFromMonday start
      let max_day : ℤ := ds.foldl (fun a b => max a (b : ℤ)) 0
      let weekday_interval := if max_day < start_weekday then 7 else interval
      (ds.mapM fun d => do
          let d0 ← increment_to_weekday start (d : ℤ) weekday_interval
          get_dates_for_interval interval d0 e).map
        fun ls : List (List ℤ) => ls.flatten.insertionSort (· ≤ ·)
  | .monthlyDate months month_dates =>
    (get_months_for_interval (months : ℤ) start e).map fun ml =>
      ((ml.map fun my => month_dates.filterMap fun d =>
          if ymdValid my.2 my.1 d then
            let dt := daysFromCivil my.2 my.1 (d : ℤ)
            if start ≤ dt ∧ dt ≤ e then some dt else none
          else none).flatten).insertionSort (· ≤ ·)
  | .monthlyDay months nth dayRule =>
    (get_months_for_interval (months : ℤ) start e).bind fun ml =>
      (ml.mapM fun my =>
        if 1 ≤ my.1 ∧ my.1 ≤ 12 then
          some (match dayRule.get_date my.2 my.1 nth with
            | some d => if start ≤ d ∧ d ≤ e then [d] else []
            | none => [])
        else none).map List.flatten
  | .yearly years months nthOpt dayOpt =>
    if years = 0 then none   -- `(year - start.year()) % 0` panics
    else
      let sy := yearOf start
      let ey := yearOf e
      let yearsList := ((List.range (ey + 1 - sy).toNat).map fun k => sy + k).filter
        fun y => (y - sy) % (years : ℤ) = 0
      (yearsList.mapM fun y =>
        (months.mapM fun m =>
          match nthOpt with
          | some n =>
            match dayOpt with
            | none => none   -- `.expect("day was not set")` panics
            | some dy =>
              if 1 ≤ (m : ℤ) ∧ (m : ℤ) ≤ 12 then
                some (match dy.get_date y (m : ℤ) n with
                  | some d => if start ≤ d ∧ d ≤ e then [d] else []
                  | none => [])
              else none
          | none =>
            let sd := dayOf start
            some (if ymdValid y (m : ℤ) sd then
                let dt := daysFromCivil y (m : ℤ) sd
                if start ≤ dt ∧ dt ≤ e then [dt] else []
              else [])).map List.flatten).map List.flatten

/-! ## `src/contribution.rs` -/

/-- `enum ContributionError`. -/
inductive CError
  | historicalStartDate
  | noPayments
  | paymentOutOfBounds (start e oob : ℤ)
  | approachingZero
  | unresolvable
  | tooMuchRecursion
deriving DecidableEq

/-- Abnormal outcomes of the embedding: a source error value, a source panic
(`unwrap` on `None`, `remove(0)` on an empty vector, division by zero), or
exhaustion of the fuel driving a source recursion/loop.  Only `.cerr`
corresponds to a value the source returns. -/
inductive RunErr
  | cerr (e : CError)
  | panicked
  | outOfFuel
deriving DecidableEq

/-- `struct Contribution`. -/
structure Contribution where
  regular : Dec
  last : Option Dec
  start_date : ℤ
  end_date : Option ℤ
  period_length : ℤ
deriving DecidableEq

/-- `Contribution::period_end`.  Rust `%` on `i64` is truncated remainder
(`Int.tmod`); a zero `period_length` would panic in Rust and is excluded by
hypothesis wherever it matters. -/
def Contribution.period_end (c : Contribution) (date : Option ℤ) : ℤ :=
  let d := date.getD c.start_date
  match c.end_date with
  | some e => e
  | none =>
    let diff := d - c.start_date + 1
    let rem := Int.tmod diff c.period_length
    if rem = 0 then d else d + c.period_length - rem

/-- `Contribution::regular_or_last`. -/
def Contribution.regular_or_last (c : Contribution) (date : ℤ) : Option Dec :=
  let pe := c.period_end (some date)
  if c.start_date ≤ date then
    if date = pe then some (c.last.getD c.regular)
    else if date < pe then some c.regular
    else none
  else none

/-- `calculate_for_duration`.  The final `assert_eq` of the source always
holds in this model (its equation is proved below) and is not modelled. -/
def calculate_for_duration (payment : Dec) (num_payments : ℕ) (duration : ℤ) :
    Except RunErr (Dec × Option Dec) :=
  let total := payment * num_payments
  let days : Dec := (duration : ℚ)
  if duration = 0 then .error .panicked
  else
    let regular := decDiv total days
    let lastv : Option Dec :=
      if regular * days ≠ total then some (total - regular * (days - 1)) else none
    if regular = 0 ∨ lastv = some 0 then .error (.cerr .approachingZero)
    else .ok (regular, lastv)

/-- The arguments of `naive_contribution`. -/
structure NArgs where
  payment : Dec
  frequency : Frequency
  payment_dates : List ℤ
  start_date : ℤ
  end_date : Option ℤ
  final_date : Option ℤ
deriving DecidableEq

/-- Result of one body execution of `naive_contribution`: either a final
outcome or a tail self-call with new arguments. -/
inductive NStep
  | done (r : Except RunErr Contribution)
  | recurse (a : NArgs)

instance {ε α : Type} [DecidableEq ε] [DecidableEq α] : DecidableEq (Except ε α) := fun a b =>
  match a, b with
  | .ok x, .ok y => decidable_of_iff (x = y) (by simp)
  | .error x, .error y => decidable_of_iff (x = y) (by simp)
  | .ok _, .error _ => isFalse (by simp)
  | .error _, .ok _ => isFalse (by simp)

instance : DecidableEq NStep := fun a b =>
  match a, b with
  | .done x, .done y => decidable_of_iff (x = y) (by simp)
  | .recurse x, .recurse y => decidable_of_iff (x = y) (by simp)
  | .done _, .recurse _ => isFalse (by simp)
  | .recurse _, .done _ => isFalse (by simp)

/-- The payment-simulation `for` loop of `naive_contribution` (lines 345-383):
returns `first_positive_date` and `cumulative_delta` as left by the loop
(the `break` leaves `cumulative_delta` un-updated, as in the source). -/
def simLoop (min_length : Dec) : List ℤ → ℤ → Option ℤ → Dec → Option ℤ × Dec
  | [], _, fpd, cum => (fpd, cum)
  | date :: rest, lag, fpd, cum =>
    let days : Dec := ((date - lag : ℤ) : ℚ)
    let delta := days - min_length
    let fpd2 := if delta ≤ 0 then none else if fpd = none then some lag else fpd
    if cum < 0 ∧ 0 ≤ cum + delta then (fpd2, cum)
    else simLoop min_length rest date fpd2 (cum + delta)

/-- The `while payment_dates.first() <= Some(&date)` shift loop (lines
391-399): drops leading payments up to `date`, re-appending `p + len` for
each when there is no end date.  Rust's `remove(0)` on an emptied vector
panics (`none`); fuel exhaustion (reachable only when `len ≤ 0` makes the
source loop diverge) is also `none`. -/
def shiftLoop (len : ℤ) (endIsNone : Bool) (date : ℤ) :
    ℕ → List ℤ → Option (List ℤ)
  | 0, _ => none
  | _ + 1, [] => none
  | fuel + 1, p :: rest =>
    if p ≤ date then
      shiftLoop len endIsNone date fuel (if endIsNone then rest ++ [p + len] else rest)
    else some (p :: rest)

/-- One body execution of `naive_contribution` (`src/contribution.rs`
lines 157-445), following the source's branch order exactly. -/
def naive_step (a : NArgs) : NStep :=
  -- recursion fence (`a.final_date.getD a.start_date < a.start_date` is
  -- exactly "final_date is Some f with start_date > f")
  if a.final_date.getD a.start_date < a.start_date then
    .done (.error (.cerr .tooMuchRecursion))
  else if a.payment_dates = [] then
    .done (.error (.cerr .noPayments))
  else
    let period_end := a.end_date.getD (a.start_date + a.frequency.get_period_length - 1)
    let period_length := period_end - a.start_date + 1
    let final2 : Option ℤ := some (a.final_date.getD period_end)
    let sorted := a.payment_dates.insertionSort (· ≤ ·)
    let first := sorted.headD 0
    let lastP := sorted.getLastD 0
    if first < a.start_date then
      .done (.error (.cerr (.paymentOutOfBounds a.start_date period_end first)))
    else if a.end_date.getD lastP < lastP then
      -- "end_date is Some e with last payment > e"
      .done (.error (.cerr (.paymentOutOfBounds a.start_date (a.end_date.getD lastP) lastP)))
    else if (sorted.length : ℤ) = period_length then
      .done (.ok ⟨a.payment, none, a.start_date, a.end_date, period_length⟩)
    else
      match calculate_for_duration a.payment sorted.length period_length with
      | .error e => .done (.error e)
      | .ok (regular, lastv) =>
        if lastP < period_end then
          if a.end_date.isSome then
            .recurse ⟨a.payment, a.frequency, sorted, a.start_date, some lastP, final2⟩
          else
            .recurse ⟨a.payment, a.frequency, sorted.tail ++ [first + period_length],
                      first + 1, none, final2⟩
        else if first = a.start_date then
          let rest := sorted.tail
          let rest2 := if a.end_date = none then rest ++ [first + period_length] else rest
          .recurse ⟨a.payment, a.frequency, rest2, a.start_date + 1, a.end_date, final2⟩
        else
          let min_length :=
            roundDpBankers 23 (decDiv (a.payment - lastv.getD regular) regular + 1)
          match simLoop min_length sorted (a.start_date - 1) none 0 with
          | (some date, _) =>
            let fuelS := (sorted.length + 2) * ((date + period_length - first).toNat + 2)
            match shiftLoop period_length (a.end_date = none) date fuelS sorted with
            | none => .done (.error .panicked)
            | some rest2 =>
              .recurse ⟨a.payment, a.frequency, rest2, date + 1, a.end_date, final2⟩
          | (none, cum) =>
            if cum < 0 then
              match sorted with
              | [] => .done (.error (.cerr .unresolvable))
              | p :: rest =>
                .recurse ⟨a.payment, a.frequency, rest, p + 1, a.end_date, final2⟩
            else
              .done (.ok ⟨regular, lastv, a.start_date, a.end_date, period_length⟩)

/-- `naive_contribution`, driven by fuel (the source recursion can diverge,
as proved below, so a fuel-free embedding is impossible). -/
def naive_contribution : ℕ → NArgs → Except RunErr Contribution
  | 0, _ => .error .outOfFuel
  | fuel + 1, a =>
    match naive_step a with
    | .done r => r
    | .recurse a2 => naive_contribution fuel a2

/-- The `while !payments.is_empty()` loop of `calculate` (lines 113-139),
with the result list built earliest-segment-first as the source's
`insert(0, …)` does. -/
def calcLoop (value : Dec) (freq : Frequency) (now : ℤ) (fuelN : ℕ) :
    ℕ → List ℤ → ℤ → Option ℤ → Except RunErr (List Contribution)
  | 0, _, _, _ => .error .outOfFuel
  | fuel + 1, payments, sd, ed =>
    if payments = [] then .ok []
    else
      match naive_contribution fuelN ⟨value, freq, payments, sd, ed, none⟩ with
      | .error e => .error e
      | .ok c =>
        match calcLoop value freq now fuelN fuel
            (payments.filter fun p => p < c.start_date) now (some (c.start_date - 1)) with
        | .error e => .error e
        | .ok rest => .ok (rest ++ [c])

/-- `calculate` (lines 82-142). -/
def calculate (value : Dec) (frequency : Frequency) (start_date : ℤ)
    (end_date : Option ℤ) (now : ℤ) (fuelN fuelL : ℕ) :
    Except RunErr (List Contribution) :=
  if start_date < now then .error (.cerr .historicalStartDate)
  else
    match frequency.get_payment_dates start_date end_date with
    | none => .error .panicked
    | some payments =>
      match frequency, end_date with
      | .once, _ => calcLoop value frequency now fuelN fuelL payments now (some start_date)
      | _, some _ =>
        match payments.getLast? with
        | none => .error .panicked   -- `payments.last().unwrap()`
        | some lp => calcLoop value frequency now fuelN fuelL payments now (some lp)
      | _, none => calcLoop value frequency now fuelN fuelL payments start_date none

/-! ## Derived notions used by the specification's properties -/

/-- The daily rate a schedule credits on day `d`: `regular_or_last` of the
segment covering `d` (summed over segments; at most one covers a given day,
the others contribute nothing). -/
def scheduleRate (cs : List Contribution) (d : ℤ) : Dec :=
  (cs.filterMap fun c => c.regular_or_last d).sum

/-- Day-by-day simulation of a built schedule: cumulative credited
contribution from `d0` through `d`, minus the unit `value` times the number
of payment dates on or before `d`. -/
def runningBalance (cs : List Contribution) (value : Dec) (pays : List ℤ) (d0 d : ℤ) : Dec :=
  ((List.range (d - d0 + 1).toNat).map fun k => scheduleRate cs (d0 + k)).sum
    - value * ((pays.filter fun p => p ≤ d).length : ℚ)

/-- The value the specification claims for month/year period lengths: the
smallest positive multiple of the 1461-day macro period that is at least `x`. -/
def claimedSmoothLength (x : ℚ) : ℤ := max 1 (qceil (x / 1461)) * 1461

/-- Bounded exhaustive statement that the month/year period lengths match the
specification's smallest-positive-multiple formula for intervals `1..bound`
(`⌈m/48⌉` months resp. `⌈y/4⌉` years of 1461 days). -/
def smoothingMatches (bound : ℕ) : Prop :=
  ∀ m < bound,
    (Frequency.monthlyDate (m + 1) []).get_period_length
        = claimedSmoothLength (((m + 1 : ℕ) : ℚ) * 365.25 / 12)
    ∧ (Frequency.yearly (m + 1) [] none none).get_period_length
        = claimedSmoothLength (((m + 1 : ℕ) : ℚ) * 365.25)

/-! ## Theorems -/

/-- C10: on an open-ended segment (`end_date = None`, positive period
length), `regular_or_last` yields, for every date on or after the start
date, the last-day rate (or the regular rate when no last-day rate is set)
exactly when the inclusive day count from the start is a multiple of the
period length, and the regular rate otherwise; for every earlier date it
yields nothing.  In particular the rounding-adjustment rate recurs on every
period boundary. -/
theorem contribution_regular_or_last_spec (c : Contribution) (d : ℤ)
    (hE : c.end_date = none) (hL : 1 ≤ c.period_length) :
    (c.start_date ≤ d →
      c.regular_or_last d = some (if (d - c.start_date + 1) % c.period_length = 0
                                  then c.last.getD c.regular else c.regular))
    ∧ (d < c.start_date → c.regular_or_last d = none) := by
  unfold Contribution.regular_or_last Contribution.period_end
  rw [hE]
  constructor
  · intro hsd
    have heq : Int.tmod (d - c.start_date + 1) c.period_length
        = (d - c.start_date + 1) % c.period_length :=
      Int.tmod_eq_emod (by omega) (by omega)
    have hrem0 : 0 ≤ (d - c.start_date + 1) % c.period_length :=
      Int.emod_nonneg _ (by omega)
    have hremlt : (d - c.start_date + 1) % c.period_length < c.period_length :=
      Int.emod_lt_of_pos _ (by omega)
    by_cases h0 : (d - c.start_date + 1) % c.period_length = 0
    · simp [heq, h0, hsd]
    · have hlt : d < d + c.period_length - (d - c.start_date + 1) % c.period_length := by omega
      simp only [Option.getD_some, heq, if_neg h0, if_pos hsd]
      rw [if_neg (ne_of_lt hlt), if_pos hlt]
  · intro hlt
    simp [not_le.mpr hlt]

/-- Witness for `contribution_regular_or_last_spec` at a concrete open-ended
segment (period 7, start day 100) and dates 106 (boundary), 104 (regular)
and 99 (before the start). -/
theorem contribution_regular_or_last_spec_witness :
    (Contribution.mk 1 (some 2) 100 none 7).regular_or_last 106 = some 2
    ∧ (Contribution.mk 1 (some 2) 100 none 7).regular_or_last 104 = some 1
    ∧ (Contribution.mk 1 (some 2) 100 none 7).regular_or_last 99 = none := by
  refine ⟨?_, ?_, ?_⟩
  · have h := (contribution_regular_or_last_spec ⟨1, some 2, 100, none, 7⟩ 106 rfl
      (by norm_num)).1 (by norm_num)
    simpa using h
  · have h := (contribution_regular_or_last_spec ⟨1, some 2, 100, none, 7⟩ 104 rfl
      (by norm_num)).1 (by norm_num)
    simpa using h
  · exact (contribution_regular_or_last_spec ⟨1, some 2, 100, none, 7⟩ 99 rfl
      (by norm_num)).2 (by norm_num)

/-- C2: whenever `calculate_for_duration` succeeds, the regular rate times
(period length minus one) plus the last-day rate (or the regular rate when
none is needed) equals the unit payment value times the payment count,
exactly. -/
theorem calculate_for_duration_exact_split (payment : Dec) (n : ℕ) (duration : ℤ)
    (regular : Dec) (lastv : Option Dec)
    (h : calculate_for_duration payment n duration = .ok (regular, lastv)) :
    regular * ((duration : ℚ) - 1) + lastv.getD regular = payment * n := by
  unfold calculate_for_duration at h
  dsimp only at h
  split at h
  · exact absurd h (by simp)
  · split at h
    · split at h
      · exact absurd h (by simp)
      · rw [Except.ok.injEq, Prod.mk.injEq] at h
        obtain ⟨hr, hl⟩ := h
        subst hr
        rw [← hl]
        simp only [Option.getD_some]
        ring
    · split at h
      · exact absurd h (by simp)
      · rw [Except.ok.injEq, Prod.mk.injEq] at h
        obtain ⟨hr, hl⟩ := h
        subst hr
        rw [← hl]
        simp only [Option.getD_none]
        rename_i hd0 hne hz
        rw [not_ne_iff] at hne
        calc decDiv (payment * n) (duration : ℚ) * ((duration : ℚ) - 1)
              + decDiv (payment * n) (duration : ℚ)
            = decDiv (payment * n) (duration : ℚ) * (duration : ℚ) := by ring
          _ = payment * n := hne

/-- Witness for `calculate_for_duration_exact_split`: $4.50 twice over
4 days splits as 2.25 × 3 + 2.25 = 9. -/
theorem calculate_for_duration_exact_split_witness :
    (9 / 4 : ℚ) * (((4 : ℤ) : ℚ) - 1) + (Option.getD (α := Dec) none (9 / 4)) = (9 / 2) * (2 : ℕ) :=
  calculate_for_duration_exact_split (9 / 2) 2 4 (9 / 4) none (by decide)

/-- C9: for a nonzero duration, `calculate_for_duration` fails with
`ApproachingZero` exactly when the computed regular rate rounds to zero or
the computed last-day adjustment is zero; whenever it succeeds, both the
regular rate and any last-day rate are nonzero. -/
theorem calculate_for_duration_approaching_zero (payment : Dec) (n : ℕ) (duration : ℤ)
    (hd : duration ≠ 0) :
    (calculate_for_duration payment n duration = .error (.cerr .approachingZero)
      ↔ decDiv (payment * n) (duration : ℚ) = 0
        ∨ (if decDiv (payment * n) (duration : ℚ) * (duration : ℚ) ≠ payment * n
           then some (payment * n - decDiv (payment * n) (duration : ℚ) * ((duration : ℚ) - 1))
           else none) = some 0)
    ∧ (∀ regular lastv, calculate_for_duration payment n duration = .ok (regular, lastv) →
        regular ≠ 0 ∧ lastv ≠ some 0) := by
  unfold calculate_for_duration
  rw [if_neg hd]
  dsimp only
  by_cases hz : decDiv (payment * n) (duration : ℚ) = 0
        ∨ (if decDiv (payment * n) (duration : ℚ) * (duration : ℚ) ≠ payment * n
           then some (payment * n - decDiv (payment * n) (duration : ℚ) * ((duration : ℚ) - 1))
           else none) = some 0
  · rw [if_pos hz]
    exact ⟨⟨fun _ => hz, fun _ => rfl⟩, fun r l h => absurd h (by simp)⟩
  · rw [if_neg hz]
    refine ⟨⟨fun h => absurd h (by simp), fun h => absurd h hz⟩, ?_⟩
    intro r l h
    rw [Except.ok.injEq, Prod.mk.injEq] at h
    push_neg at hz
    exact ⟨h.1 ▸ hz.1, h.2 ▸ hz.2⟩

/-- Witness for `calculate_for_duration_approaching_zero` at a one-cent
payment over 365 days, whose rates are nonzero. -/
theorem calculate_for_duration_approaching_zero_witness :
    ((1 / 100 : ℚ) / 365 ≠ 0) ∧
      ((273972602739726027397260 : ℚ) / 10 ^ 28 ≠ 0
        ∧ some ((273972602739726027397360 : ℚ) / 10 ^ 28) ≠ some (0 : ℚ)) :=
  ⟨by norm_num,
   (calculate_for_duration_approaching_zero (1 / 100) 1 365 (by norm_num)).2
     ((273972602739726027397260 : ℚ) / 10 ^ 28)
     (some ((273972602739726027397360 : ℚ) / 10 ^ 28))
     (by decide)⟩

/-- C5 counterexample: for the `Day` rule with `nth = 5` in April 2000 the
resolver returns the 5th of the month, not `None`, contradicting the claim
that the maximum occurrence count is always 4 for the `Day` rule (the source
compares `get_day_of_week() = 0 ≤ length - 28`, which always allows 5 for
the non-named-weekday rules). -/
theorem get_date_day_rule_fifth :
    FrequencyMonthDay.day.get_date 2000 4 5 = some (daysFromCivil 2000 4 5) := by
  decide

/-- C5 (amended): for a valid month, `get_date` returns `None` exactly when
`nth` is non-zero and exceeds `max_nth`, where `max_nth` is 5 when the
rule's weekday number (0 for the `Day`/`Weekday`/`Weekend` rules) is at most
the month's length minus 28 and 4 otherwise; and for named weekdays,
`nth = 0` (seek last) resolves by substituting `max_nth`. -/
theorem get_date_none_iff_max_nth (self : FrequencyMonthDay) (year month : ℤ) (nth : ℕ)
    (h1 : 1 ≤ month) (h2 : month ≤ 12) :
    (self.get_date year month nth = none ↔ nth ≠ 0 ∧ self.max_nth year month < nth)
    ∧ (self.get_day_of_week ≠ 0 →
        self.get_date year month 0 = self.get_date year month (self.max_nth year month)) := by
  constructor
  · unfold FrequencyMonthDay.get_date
    dsimp only
    split
    · rename_i hcond
      simp only [true_iff]
      exact ⟨hcond.1, hcond.2⟩
    · rename_i hcond
      push_neg at hcond
      simp only [reduceCtorEq, false_iff, not_and, not_lt]
      intro hne
      exact hcond hne
  · intro hnw
    have hmax : self.max_nth year month ≠ 0 := by
      unfold FrequencyMonthDay.max_nth
      split <;> omega
    cases self
    case day => exact absurd rfl hnw
    case weekday => exact absurd rfl hnw
    case weekend => exact absurd rfl hnw
    all_goals
      simp [FrequencyMonthDay.get_date, hmax]

/-- Witness for `get_date_none_iff_max_nth` at the Friday rule in April
2000 with `nth = 5`. -/
theorem get_date_none_iff_max_nth_witness :
    (FrequencyMonthDay.friday.get_date 2000 4 5 = none
      ↔ (5 : ℕ) ≠ 0 ∧ FrequencyMonthDay.friday.max_nth 2000 4 < 5)
    ∧ (FrequencyMonthDay.friday.get_day_of_week ≠ 0 →
        FrequencyMonthDay.friday.get_date 2000 4 0
          = FrequencyMonthDay.friday.get_date 2000 4 (FrequencyMonthDay.friday.max_nth 2000 4)) :=
  get_date_none_iff_max_nth .friday 2000 4 5 (by norm_num) (by norm_num)

/-- C4: the claim's ordering clause fails, and the intent of the source (the
`Weekly`/`MonthlyDate` branches sort and say consumers expect order) marks
it as a code bug: the `Yearly` branch iterates the user-supplied month list
in its given order and never sorts, so `Yearly(1, [8, 2])` over year 2000
returns `[2000-08-01, 2000-02-01]`, which is not ascending. -/
theorem get_payment_dates_yearly_unsorted :
    (Frequency.yearly 1 [8, 2] none none).get_payment_dates (daysFromCivil 2000 1 1)
        (some (daysFromCivil 2000 12 31))
      = some [daysFromCivil 2000 8 1, daysFromCivil 2000 2 1]
    ∧ daysFromCivil 2000 2 1 < daysFromCivil 2000 8 1 := by
  decide

/-- C3 counterexample: on Scenario B (`value = $1`, `Daily(2)`,
`start = 2000-01-01`, `end = 2000-01-03`, `now = 2000-01-01`) the builder
returns two segments, not exactly one. -/
theorem calculate_scenario_b_two_segments :
    (calculate 1 (.daily 2) (daysFromCivil 2000 1 1) (some (daysFromCivil 2000 1 3))
        (daysFromCivil 2000 1 1) 40 40).map List.length = .ok 2 := by
  decide

/-- C3 (amended): on Scenario B the builder returns two segments: a one-day
catch-up segment of rate $1 covering the 2000-01-01 payment, followed by a
segment with regular rate $0.50 starting 2000-01-02 (the start-day payment
cannot be funded on its own day, so the main segment's start is advanced one
day and a separate catch-up segment funds that payment). -/
theorem calculate_scenario_b_exact :
    calculate 1 (.daily 2) (daysFromCivil 2000 1 1) (some (daysFromCivil 2000 1 3))
        (daysFromCivil 2000 1 1) 40 40
      = .ok [⟨1, none, daysFromCivil 2000 1 1, some (daysFromCivil 2000 1 1), 1⟩,
             ⟨1 / 2, none, daysFromCivil 2000 1 2, some (daysFromCivil 2000 1 3), 2⟩] := by
  decide

/-- C1: the non-negativity claim fails on the code (a code bug: the source
itself marks its `round_dp(23)` guard as a hack that "only solves rounding
error for narrow test cases").  For `value = $1`, `Daily(3)`,
`start = 2000-01-03`, `end = 2000-01-06`, `now = 2000-01-01` the builder
returns one segment with regular rate 0.3333333333333333333333333333, and
the day-by-day simulation is negative (−10⁻²⁸) on 2000-01-03, the first
payment date. -/
theorem calculate_negative_drift :
    (Frequency.daily 3).get_payment_dates (daysFromCivil 2000 1 3)
        (some (daysFromCivil 2000 1 6))
      = some [daysFromCivil 2000 1 3, daysFromCivil 2000 1 6]
    ∧ calculate 1 (.daily 3) (daysFromCivil 2000 1 3) (some (daysFromCivil 2000 1 6))
        (daysFromCivil 2000 1 1) 40 40
      = .ok [⟨(3333333333333333333333333333 : ℚ) / 10 ^ 28,
             some ((3333333333333333333333333335 : ℚ) / 10 ^ 28),
             daysFromCivil 2000 1 1, some (daysFromCivil 2000 1 6), 6⟩]
    ∧ runningBalance
        [⟨(3333333333333333333333333333 : ℚ) / 10 ^ 28,
          some ((3333333333333333333333333335 : ℚ) / 10 ^ 28),
          daysFromCivil 2000 1 1, some (daysFromCivil 2000 1 6), 6⟩]
        1 [daysFromCivil 2000 1 3, daysFromCivil 2000 1 6]
        (daysFromCivil 2000 1 1) (daysFromCivil 2000 1 3) < 0 := by
  decide

/-- C7: the termination claim fails on the code (a code bug: the fence is
meant to "prevent infinite looping" but only fires when the start date
advances).  On `payment = $10⁻²⁶`, payments `[2000-01-03, 2000-01-06]`,
`start = 2000-01-01`, `end = 2000-01-06`, fence `2000-01-06`, the solver
body recurses with arguments identical to its own (the simulation's
`first_positive_date` is `start - 1`, so nothing is dropped and the start
does not advance), so the source recursion never terminates. -/
theorem naive_step_self_loop :
    naive_step ⟨1 / 10 ^ 26, .daily 1, [daysFromCivil 2000 1 3, daysFromCivil 2000 1 6],
                daysFromCivil 2000 1 1, some (daysFromCivil 2000 1 6),
                some (daysFromCivil 2000 1 6)⟩
      = .recurse ⟨1 / 10 ^ 26, .daily 1, [daysFromCivil 2000 1 3, daysFromCivil 2000 1 6],
                  daysFromCivil 2000 1 1, some (daysFromCivil 2000 1 6),
                  some (daysFromCivil 2000 1 6)⟩ := by
  decide

/-- C8 counterexample: at interval 183792 months the naive length
`183792 × 365.25 / 12` is exactly the multiple `3829 × 1461`, so the
claimed "smallest positive multiple of the macro period" is `3829 × 1461`;
but the source's `f32` arithmetic rounds up and yields `3830 × 1461`.  The
`Daily` clause also fails at the representable input `u32::MAX`: the source's
`u32` addition `days + 1` wraps, yielding 0 days instead of `n + 1`. -/
theorem get_period_length_f32_overshoot :
    (Frequency.monthlyDate 183792 []).get_period_length = 1461 * 3830
    ∧ claimedSmoothLength ((183792 : ℚ) * 365.25 / 12) = 1461 * 3829
    ∧ (1461 * 3830 : ℤ) ≠ 1461 * 3829
    ∧ (Frequency.daily (2 ^ 32 - 1)).get_period_length = 0 := by
  decide

/-- Bounded exhaustive verification used by `get_period_length_spec_bounded`. -/
theorem smoothingMatches_300 : smoothingMatches 300 := by
  unfold smoothingMatches
  decide

/-- C8 (amended): `Once` has period 1 day, `Daily(n)` has `n + 1` days
whenever `n + 1` fits in `u32` (the source adds in `u32`, wrapping to 0 days
at `n = u32::MAX`), `Weekly(w, _)` has `7w` days, and for intervals from 1
to 300 the month/year rules yield the smallest positive multiple of the
1461-day macro period at least the naive length (`m × 365.25 / 12` resp.
`y × 365.25` days).  (At interval 0 the source yields 0 days, and for very
large intervals its `f32` arithmetic can overshoot the smallest multiple.) -/
theorem get_period_length_spec_bounded :
    Frequency.once.get_period_length = 1
    ∧ (∀ n : ℕ, n + 1 < 2 ^ 32 → (Frequency.daily n).get_period_length = (n : ℤ) + 1)
    ∧ (∀ w ds, (Frequency.weekly w ds).get_period_length = 7 * (w : ℤ))
    ∧ (∀ m : ℕ, 1 ≤ m → m ≤ 300 → ∀ ds nth dr,
        (Frequency.monthlyDate m ds).get_period_length
            = claimedSmoothLength ((m : ℚ) * 365.25 / 12)
        ∧ (Frequency.monthlyDay m nth dr).get_period_length
            = claimedSmoothLength ((m : ℚ) * 365.25 / 12))
    ∧ (∀ y : ℕ, 1 ≤ y → y ≤ 300 → ∀ ms nth dr,
        (Frequency.yearly y ms nth dr).get_period_length
            = claimedSmoothLength ((y : ℚ) * 365.25)) := by
  refine ⟨rfl, ?_, fun w ds => rfl, ?_, ?_⟩
  · intro n hn
    simp only [Frequency.get_period_length]
    rw [Nat.mod_eq_of_lt hn]
    push_cast
    ring
  · intro m hm1 hm2 ds nth dr
    obtain ⟨hmon, hyr⟩ := smoothingMatches_300 (m - 1) (by omega)
    have hm : m - 1 + 1 = m := by omega
    rw [hm] at hmon
    exact ⟨hmon, hmon⟩
  · intro y hy1 hy2 ms nth dr
    obtain ⟨hmon, hyr⟩ := smoothingMatches_300 (y - 1) (by omega)
    have hy : y - 1 + 1 = y := by omega
    rw [hy] at hyr
    exact hyr

/-- Witness for `get_period_length_spec_bounded` at `Daily(2)` (no `u32`
wrap) and at interval 49 months (which needs two macro periods). -/
theorem get_period_length_spec_bounded_witness :
    (Frequency.daily 2).get_period_length = ((2 : ℕ) : ℤ) + 1
    ∧ (Frequency.monthlyDate 49 [1]).get_period_length
      = claimedSmoothLength ((49 : ℚ) * 365.25 / 12) :=
  ⟨get_period_length_spec_bounded.2.1 2 (by norm_num),
   (get_period_length_spec_bounded.2.2.2.1 49 (by norm_num) (by norm_num) [1] 0 .day).1⟩


/-! ## Chain contiguity of built schedules (C6) -/

theorem sorted_le_getLastD : ∀ {l : List ℤ}, l.Sorted (· ≤ ·) →
    ∀ x ∈ l, x ≤ l.getLastD 0 := by
  intro l
  induction l with
  | nil => intro _ x hx; cases hx
  | cons a t ih =>
    intro hs x hx
    cases t with
    | nil =>
      rcases List.mem_cons.mp hx with hx | hx
      · simp [hx]
      · cases hx
    | cons b t2 =>
      have hrest : List.Sorted (· ≤ ·) (b :: t2) := (List.sorted_cons.mp hs).2
      simp only [List.getLastD_cons]
      rcases List.mem_cons.mp hx with hx | hx
      · subst hx
        have hab : x ≤ b := (List.sorted_cons.mp hs).1 b (by simp)
        have := ih hrest b (by simp)
        simp only [List.getLastD_cons] at this
        exact le_trans hab this
      · have := ih hrest x hx
        simp only [List.getLastD_cons] at this
        exact this

theorem sorted_headD_le {l : List ℤ} (hs : l.Sorted (· ≤ ·)) {x : ℤ} (hx : x ∈ l) :
    l.headD 0 ≤ x := by
  cases l with
  | nil => cases hx
  | cons a t =>
    rcases List.mem_cons.mp hx with hx | hx
    · simp [hx]
    · exact (List.sorted_cons.mp hs).1 x hx

theorem headD_mem {l : List ℤ} (h : l ≠ []) : l.headD 0 ∈ l := by
  cases l with
  | nil => exact absurd rfl h
  | cons a t => simp

theorem getLastD_mem {l : List ℤ} (h : l ≠ []) : l.getLastD 0 ∈ l := by
  induction l with
  | nil => exact absurd rfl h
  | cons a t ih =>
    cases t with
    | nil => simp
    | cons b t2 =>
      have := ih (by simp)
      simp only [List.getLastD_cons] at this ⊢
      exact List.mem_cons_of_mem a this

theorem qfloor_eq (q : ℚ) : qfloor q = ⌊q⌋ := by
  unfold qfloor
  rw [Int.fdiv_eq_ediv _ (by positivity), Rat.floor_def]

theorem qceil_eq (q : ℚ) : qceil q = ⌈q⌉ := by
  unfold qceil
  rw [qfloor_eq, Int.floor_neg, neg_neg]

theorem qfloor_nonneg {q : ℚ} (h : 0 ≤ q) : 0 ≤ qfloor q := by
  rw [qfloor_eq]; exact Int.floor_nonneg.mpr h

theorem qceil_nonneg {q : ℚ} (h : 0 ≤ q) : 0 ≤ qceil q := by
  rw [qceil_eq]; exact Int.ceil_nonneg h

theorem qpow2_pos (e : ℤ) : 0 < qpow2 e := by
  unfold qpow2; split <;> positivity

theorem rndHalfEven_nonneg {x : ℚ} (h : 0 ≤ x) : 0 ≤ rndHalfEven x := by
  unfold rndHalfEven
  have hk : 0 ≤ qfloor x := qfloor_nonneg h
  dsimp only
  split
  · exact hk
  · split
    · omega
    · split <;> omega

theorem f32round_nonneg (q : ℚ) : 0 ≤ f32round q := by
  unfold f32round
  split
  · exact le_refl 0
  · rename_i hq
    push_neg at hq
    have h1 : (0 : ℚ) ≤ rndHalfEven (q * qpow2 (23 - floorLog2 q)) := by
      exact_mod_cast rndHalfEven_nonneg (le_of_lt (mul_pos hq (qpow2_pos _)))
    exact mul_nonneg h1 (le_of_lt (qpow2_pos _))

theorem perLen_nonneg (f : Frequency) : 0 ≤ f.get_period_length := by
  have hsmooth : ∀ x : ℚ, 0 ≤ toSmoothPeriods x := by
    intro x
    unfold toSmoothPeriods smoothPeriod
    exact mul_nonneg (qceil_nonneg (f32round_nonneg _)) (by norm_num)
  cases f with
  | once => norm_num [Frequency.get_period_length]
  | daily d => simp only [Frequency.get_period_length]; positivity
  | weekly w ds => simp only [Frequency.get_period_length]; positivity
  | monthlyDate m ds => exact hsmooth _
  | monthlyDay m n r => exact hsmooth _
  | yearly y ms n r => exact hsmooth _

theorem naive_ok_checks {fuel : ℕ} {a : NArgs} {c : Contribution}
    (h : naive_contribution fuel a = .ok c) :
    (∀ f, a.final_date = some f → a.start_date ≤ f) ∧
    a.payment_dates ≠ [] ∧
    (∀ p ∈ a.payment_dates, a.start_date ≤ p) ∧
    (∀ e, a.end_date = some e → ∀ p ∈ a.payment_dates, p ≤ e) := by
  cases fuel with
  | zero => exact absurd h (by simp [naive_contribution])
  | succ n =>
    simp only [naive_contribution] at h
    by_cases h1 : a.final_date.getD a.start_date < a.start_date
    · have hns : naive_step a = .done (.error (.cerr .tooMuchRecursion)) := by
        unfold naive_step; rw [if_pos h1]
      rw [hns] at h
      exact absurd h (by simp)
    by_cases h2 : a.payment_dates = []
    · have hns : naive_step a = .done (.error (.cerr .noPayments)) := by
        unfold naive_step; rw [if_neg h1, if_pos h2]
      rw [hns] at h
      exact absurd h (by simp)
    by_cases h3 : (a.payment_dates.insertionSort (· ≤ ·)).headD 0 < a.start_date
    · have hns : naive_step a = .done (.error (.cerr (.paymentOutOfBounds a.start_date
          (a.end_date.getD (a.start_date + a.frequency.get_period_length - 1))
          ((a.payment_dates.insertionSort (· ≤ ·)).headD 0)))) := by
        unfold naive_step
        rw [if_neg h1, if_neg h2]
        dsimp only
        rw [if_pos h3]
      rw [hns] at h
      exact absurd h (by simp)
    by_cases h4 : a.end_date.getD ((a.payment_dates.insertionSort (· ≤ ·)).getLastD 0)
        < (a.payment_dates.insertionSort (· ≤ ·)).getLastD 0
    · have hns : naive_step a = .done (.error (.cerr (.paymentOutOfBounds a.start_date
          (a.end_date.getD ((a.payment_dates.insertionSort (· ≤ ·)).getLastD 0))
          ((a.payment_dates.insertionSort (· ≤ ·)).getLastD 0)))) := by
        unfold naive_step
        rw [if_neg h1, if_neg h2]
        dsimp only
        rw [if_neg h3, if_pos h4]
      rw [hns] at h
      exact absurd h (by simp)
    have hsorted : (a.payment_dates.insertionSort (· ≤ ·)).Sorted (· ≤ ·) :=
      List.sorted_insertionSort _ _
    have hmem : ∀ p, p ∈ a.payment_dates ↔ p ∈ a.payment_dates.insertionSort (· ≤ ·) :=
      fun p => ((List.perm_insertionSort _ _).mem_iff).symm
    refine ⟨?_, h2, ?_, ?_⟩
    · intro f hf
      rw [hf] at h1
      simpa using h1
    · intro p hp
      have := sorted_headD_le hsorted ((hmem p).mp hp)
      omega
    · intro e he p hp
      rw [he] at h4
      have := sorted_le_getLastD hsorted p ((hmem p).mp hp)
      simp only [Option.getD_some, not_lt] at h4
      omega

theorem shiftLoop_false_mem : ∀ (len date : ℤ) (fuel : ℕ) (l l' : List ℤ),
    shiftLoop len false date fuel l = some l' →
    (∀ x ∈ l', x ∈ l) ∧ (∀ x ∈ l, x ∈ l' ∨ x ≤ date) := by
  intro len date fuel
  induction fuel with
  | zero => intro l l' h; exact absurd h (by simp [shiftLoop])
  | succ n ih =>
    intro l l' h
    cases l with
    | nil => exact absurd h (by simp [shiftLoop])
    | cons p rest =>
      rw [shiftLoop] at h
      by_cases hp : p ≤ date
      · rw [if_pos hp] at h
        simp only [Bool.false_eq_true, if_neg (by simp : ¬False)] at h
        have := ih rest l' (by simpa using h)
        refine ⟨fun x hx => List.mem_cons_of_mem _ (this.1 x hx), ?_⟩
        intro x hx
        rcases List.mem_cons.mp hx with hx | hx
        · subst hx; exact Or.inr hp
        · exact this.2 x hx
      · rw [if_neg hp] at h
        rw [Option.some.injEq] at h
        subst h
        exact ⟨fun x hx => hx, fun x hx => Or.inl hx⟩

theorem shiftLoop_false_none : ∀ (len date : ℤ) (fuel : ℕ) (l : List ℤ),
    (∀ x ∈ l, x ≤ date) → shiftLoop len false date fuel l = none := by
  intro len date fuel
  induction fuel with
  | zero => intro l _; rw [shiftLoop]
  | succ n ih =>
    intro l hall
    cases l with
    | nil => rw [shiftLoop]
    | cons p rest =>
      rw [shiftLoop, if_pos (hall p (by simp))]
      simp only [Bool.false_eq_true, if_neg (by simp : ¬False)]
      exact ih rest (fun x hx => hall x (List.mem_cons_of_mem _ hx))

theorem shiftLoop_true_mem : ∀ (len date : ℤ) (fuel : ℕ) (l l' : List ℤ),
    shiftLoop len true date fuel l = some l' →
    ∀ x ∈ l', x ∈ l ∨ ∃ q ∈ l, ∃ k : ℕ, 1 ≤ k ∧ x = q + k * len := by
  intro len date fuel
  induction fuel with
  | zero => intro l l' h; exact absurd h (by simp [shiftLoop])
  | succ n ih =>
    intro l l' h
    cases l with
    | nil => exact absurd h (by simp [shiftLoop])
    | cons p rest =>
      rw [shiftLoop] at h
      by_cases hp : p ≤ date
      · rw [if_pos hp, if_pos rfl] at h
        intro x hx
        rcases ih (rest ++ [p + len]) l' h x hx with hm | ⟨q, hq, k, hk1, hk2⟩
        · rcases List.mem_append.mp hm with hm | hm
          · exact Or.inl (List.mem_cons_of_mem _ hm)
          · refine Or.inr ⟨p, by simp, 1, le_refl 1, ?_⟩
            simp only [List.mem_singleton] at hm
            omega
        · rcases List.mem_append.mp hq with hq | hq
          · exact Or.inr ⟨q, List.mem_cons_of_mem _ hq, k, hk1, hk2⟩
          · simp only [List.mem_singleton] at hq
            refine Or.inr ⟨p, by simp, k + 1, by omega, ?_⟩
            subst hq
            push_cast
            linarith [hk2]
      · rw [if_neg hp] at h
        rw [Option.some.injEq] at h
        subst h
        exact fun x hx => Or.inl hx

theorem simLoop_some_mem (ml : Dec) : ∀ (l : List ℤ) (lag : ℤ) (fpd : Option ℤ) (cum : Dec)
    (d : ℤ) (cum' : Dec), simLoop ml l lag fpd cum = (some d, cum') →
    fpd = some d ∨ d = lag ∨ d ∈ l := by
  intro l
  induction l with
  | nil =>
    intro lag fpd cum d cum' h
    rw [simLoop] at h
    rw [Prod.mk.injEq] at h
    exact Or.inl h.1
  | cons p rest ih =>
    intro lag fpd cum d cum' h
    rw [simLoop] at h
    set fpd2 := if ((p - lag : ℤ) : ℚ) - ml ≤ 0 then none
        else if fpd = none then some lag else fpd with hfpd2
    have hfpd2d : fpd2 = some d → fpd = some d ∨ d = lag := by
      intro hd
      rw [hfpd2] at hd
      split at hd
      · exact absurd hd (by simp)
      · split at hd
        · rw [Option.some.injEq] at hd
          exact Or.inr hd.symm
        · exact Or.inl hd
    split at h
    · rw [Prod.mk.injEq] at h
      rcases hfpd2d h.1 with h' | h'
      · exact Or.inl h'
      · exact Or.inr (Or.inl h')
    · rcases ih p fpd2 _ d cum' h with h' | h' | h'
      · rcases hfpd2d h' with h'' | h''
        · exact Or.inl h''
        · exact Or.inr (Or.inl h'')
      · exact Or.inr (Or.inr (by simp [h']))
      · exact Or.inr (Or.inr (List.mem_cons_of_mem _ h'))

theorem mem_not_tail_eq_headD {l : List ℤ} {x : ℤ} (hx : x ∈ l) (hnt : x ∉ l.tail) :
    x = l.headD 0 := by
  cases l with
  | nil => cases hx
  | cons a t =>
    rcases List.mem_cons.mp hx with h | h
    · simpa using h
    · exact absurd h (by simpa using hnt)

theorem naive_some_bounds : ∀ (fuel : ℕ) (a : NArgs) (e0 : ℤ) (c : Contribution),
    a.end_date = some e0 →
    (∀ p ∈ a.payment_dates, p ≤ e0) →
    naive_contribution fuel a = .ok c →
    (c.start_date = a.start_date ∨ c.start_date - 1 ∈ a.payment_dates) ∧
    a.start_date ≤ c.start_date ∧
    (∃ e1, c.end_date = some e1 ∧ c.start_date ≤ e1 ∧ e1 ≤ e0) ∧
    (e0 ∈ a.payment_dates → c.end_date = some e0) := by
  intro fuel
  induction fuel with
  | zero => intro a e0 c _ _ h; exact absurd h (by simp [naive_contribution])
  | succ n ih =>
    intro a e0 c hE hB h
    obtain ⟨hckF, hckNE, hckS, hckE⟩ := naive_ok_checks h
    have hsorted : (a.payment_dates.insertionSort (· ≤ ·)).Sorted (· ≤ ·) :=
      List.sorted_insertionSort _ _
    have hperm : ∀ p : ℤ, p ∈ a.payment_dates.insertionSort (· ≤ ·) ↔ p ∈ a.payment_dates :=
      fun p => (List.perm_insertionSort _ _).mem_iff
    have hsne : a.payment_dates.insertionSort (· ≤ ·) ≠ [] := by
      intro hnil
      have hp := List.perm_insertionSort (· ≤ ·) a.payment_dates
      rw [hnil] at hp
      exact hckNE (List.Perm.nil_eq hp).symm
    simp only [naive_contribution] at h
    generalize hstep : naive_step a = s at h
    unfold naive_step at hstep
    rw [hE] at hstep
    simp only [Option.getD_some] at hstep
    set S := a.payment_dates.insertionSort (· ≤ ·) with hSdef
    clear_value S
    by_cases h1 : a.final_date.getD a.start_date < a.start_date
    · rw [if_pos h1] at hstep
      rw [← hstep] at h
      exact absurd h (by simp)
    rw [if_neg h1] at hstep
    by_cases h2 : a.payment_dates = []
    · exact absurd h2 hckNE
    rw [if_neg h2] at hstep
    by_cases h3 : S.headD 0 < a.start_date
    · rw [if_pos h3] at hstep
      rw [← hstep] at h
      exact absurd h (by simp)
    rw [if_neg h3] at hstep
    by_cases h4 : e0 < S.getLastD 0
    · rw [if_pos h4] at hstep
      rw [← hstep] at h
      exact absurd h (by simp)
    rw [if_neg h4] at hstep
    by_cases h5 : (S.length : ℤ) = e0 - a.start_date + 1
    · -- the whole-window segment (`num_payments == period_length`)
      rw [if_pos h5] at hstep
      rw [← hstep] at h
      have h' : (Except.ok ⟨a.payment, none, a.start_date, some e0, e0 - a.start_date + 1⟩
          : Except RunErr Contribution) = .ok c := h
      rw [Except.ok.injEq] at h'
      subst h'
      refine ⟨Or.inl rfl, le_refl _, ⟨e0, rfl, ?_, le_refl e0⟩, fun _ => rfl⟩
      show a.start_date ≤ e0
      obtain ⟨p, hp⟩ := List.exists_mem_of_ne_nil _ hckNE
      have hp1 := hckS p hp
      have hp2 := hckE e0 hE p hp
      omega
    rw [if_neg h5] at hstep
    cases hcfd : calculate_for_duration a.payment S.length (e0 - a.start_date + 1) with
    | error e =>
      simp only [hcfd] at hstep
      rw [← hstep] at h
      exact absurd h (by simp)
    | ok rl =>
      obtain ⟨regular, lastv⟩ := rl
      simp only [hcfd] at hstep
      by_cases h7 : S.getLastD 0 < e0
      · -- last payment strictly before the period end: shrink the end date
        rw [if_pos h7, if_pos (show ((some e0 : Option ℤ)).isSome = true from rfl)] at hstep
        rw [← hstep] at h
        have h' : naive_contribution n ⟨a.payment, a.frequency, S, a.start_date,
            some (S.getLastD 0), some (a.final_date.getD e0)⟩ = .ok c := h
        obtain ⟨ih1, ih2, ⟨e1, he1, he1a, he1b⟩, ih4⟩ :=
          ih _ (S.getLastD 0) c rfl (fun p hp => sorted_le_getLastD hsorted p hp) h'
        have hlmem : S.getLastD 0 ∈ a.payment_dates := (hperm _).mp (getLastD_mem hsne)
        refine ⟨?_, ih2, ⟨e1, he1, he1a, ?_⟩, ?_⟩
        · rcases ih1 with h' | h'
          · exact Or.inl h'
          · exact Or.inr ((hperm _).mp h')
        · have := hB _ hlmem
          omega
        · intro hm0
          have hb1 : e0 ≤ S.getLastD 0 := sorted_le_getLastD hsorted e0 ((hperm e0).mpr hm0)
          exact absurd h7 (by omega)
      rw [if_neg h7] at hstep
      by_cases h9 : S.headD 0 = a.start_date
      · -- the first payment falls on the start date: drop it, advance one day
        rw [if_pos h9] at hstep
        rw [if_neg (by simp : ¬((some e0 : Option ℤ) = none))] at hstep
        rw [← hstep] at h
        have h' : naive_contribution n ⟨a.payment, a.frequency, S.tail, a.start_date + 1,
            some e0, some (a.final_date.getD e0)⟩ = .ok c := h
        obtain ⟨hck2F, hck2NE, hck2S, hck2E⟩ := naive_ok_checks h'
        obtain ⟨ih1, ih2, ih3, ih4⟩ :=
          ih _ e0 c rfl (fun p hp => hB p ((hperm p).mp (List.mem_of_mem_tail hp))) h'
        have ih1' : c.start_date = a.start_date + 1 ∨ c.start_date - 1 ∈ S.tail := ih1
        have ih2' : a.start_date + 1 ≤ c.start_date := ih2
        refine ⟨?_, by omega, ih3, ?_⟩
        · rcases ih1' with h' | h'
          · right
            have hh : S.headD 0 ∈ a.payment_dates := (hperm _).mp (headD_mem hsne)
            have he : c.start_date - 1 = a.start_date := by omega
            rw [he, ← h9]
            exact hh
          · exact Or.inr ((hperm _).mp (List.mem_of_mem_tail h'))
        · intro hm0
          have hmem : e0 ∈ S := (hperm _).mpr hm0
          by_cases htl : e0 ∈ S.tail
          · exact ih4 htl
          · have he0 : e0 = S.headD 0 := mem_not_tail_eq_headD hmem htl
            have he0' : e0 = a.start_date := by rw [he0, h9]
            by_cases hrest : S.tail = []
            · exact absurd hrest hck2NE
            · obtain ⟨p, hp⟩ := List.exists_mem_of_ne_nil _ hrest
              have hp1 : a.start_date + 1 ≤ p := hck2S p hp
              have hp2 : p ≤ e0 := hB p ((hperm p).mp (List.mem_of_mem_tail hp))
              exact absurd hp1 (by omega)
      rw [if_neg h9] at hstep
      cases hsim0 : simLoop (roundDpBankers 23 (decDiv (a.payment - lastv.getD regular) regular + 1))
          S (a.start_date - 1) none 0 with
      | mk fpd cum =>
        cases fpd with
        | some date =>
          -- the simulation found a first positive date: shift past it
          simp only [hsim0] at hstep
          rw [show (decide ((some e0 : Option ℤ) = none)) = false from by simp] at hstep
          cases hshift : shiftLoop (e0 - a.start_date + 1) false date
              ((S.length + 2) * ((date + (e0 - a.start_date + 1) - S.headD 0).toNat + 2)) S with
          | none =>
            simp only [hshift] at hstep
            rw [← hstep] at h
            exact absurd h (by simp)
          | some rest2 =>
            simp only [hshift] at hstep
            rw [← hstep] at h
            have h' : naive_contribution n ⟨a.payment, a.frequency, rest2, date + 1,
                some e0, some (a.final_date.getD e0)⟩ = .ok c := h
            obtain ⟨hsub, hcov⟩ := shiftLoop_false_mem _ _ _ _ _ hshift
            obtain ⟨ih1, ih2, ih3, ih4⟩ :=
              ih _ e0 c rfl (fun p hp => hB p ((hperm p).mp (hsub p hp))) h'
            have ih1' : c.start_date = date + 1 ∨ c.start_date - 1 ∈ rest2 := ih1
            have ih2' : date + 1 ≤ c.start_date := ih2
            have hsim' : date = a.start_date - 1 ∨ date ∈ S := by
              rcases simLoop_some_mem _ _ _ _ _ _ _ hsim0 with h' | h' | h'
              · exact absurd h' (by simp)
              · exact Or.inl h'
              · exact Or.inr h'
            have hdge : a.start_date - 1 ≤ date := by
              rcases hsim' with h' | h'
              · omega
              · have := sorted_headD_le hsorted h'
                omega
            refine ⟨?_, by omega, ih3, ?_⟩
            · rcases ih1' with h' | h'
              · rcases hsim' with hd | hd
                · exact Or.inl (by omega)
                · right
                  have hce : c.start_date - 1 = date := by omega
                  rw [hce]
                  exact (hperm _).mp hd
              · exact Or.inr ((hperm _).mp (hsub _ h'))
            · intro hm0
              have hmemS : e0 ∈ S := (hperm _).mpr hm0
              rcases hcov e0 hmemS with h' | h'
              · exact ih4 h'
              · have hall : ∀ x ∈ S, x ≤ date :=
                  fun x hx => le_trans (hB x ((hperm x).mp hx)) h'
                rw [shiftLoop_false_none _ _ _ _ hall] at hshift
                exact absurd hshift (by simp)
        | none =>
          simp only [hsim0] at hstep
          by_cases h12 : cum < 0
          · -- shortfall: drop the first payment, advance past it
            rw [if_pos h12] at hstep
            cases hS2 : S with
            | nil => exact absurd hS2 hsne
            | cons p rest =>
              simp only [hS2] at hstep
              rw [← hstep] at h
              have h' : naive_contribution n ⟨a.payment, a.frequency, rest, p + 1,
                  some e0, some (a.final_date.getD e0)⟩ = .ok c := h
              obtain ⟨hck2F, hck2NE, hck2S, hck2E⟩ := naive_ok_checks h'
              obtain ⟨ih1, ih2, ih3, ih4⟩ :=
                ih _ e0 c rfl
                  (fun x hx => hB x ((hperm x).mp (by rw [hS2]; exact List.mem_cons_of_mem _ hx))) h'
              have ih1' : c.start_date = p + 1 ∨ c.start_date - 1 ∈ rest := ih1
              have ih2' : p + 1 ≤ c.start_date := ih2
              have hfp : S.headD 0 = p := by rw [hS2]; rfl
              have hps : a.start_date ≤ p := by omega
              refine ⟨?_, by omega, ih3, ?_⟩
              · rcases ih1' with h' | h'
                · right
                  have hce : c.start_date - 1 = p := by omega
                  rw [hce]
                  exact (hperm _).mp (by rw [hS2]; exact List.mem_cons_self _ _)
                · exact Or.inr ((hperm _).mp (by rw [hS2]; exact List.mem_cons_of_mem _ h'))
              · intro hm0
                have hmemS : e0 ∈ S := (hperm _).mpr hm0
                rw [hS2] at hmemS
                rcases List.mem_cons.mp hmemS with h' | h'
                · by_cases hrest : rest = []
                  · exact absurd hrest hck2NE
                  · obtain ⟨q, hq⟩ := List.exists_mem_of_ne_nil _ hrest
                    have hq1 : p + 1 ≤ q := hck2S q hq
                    have hq2 : q ≤ e0 :=
                      hB q ((hperm q).mp (by rw [hS2]; exact List.mem_cons_of_mem _ hq))
                    exact absurd hq1 (by omega)
                · exact ih4 h'
          · -- no shortfall: final segment over the whole window
            rw [if_neg h12] at hstep
            rw [← hstep] at h
            have h' : (Except.ok ⟨regular, lastv, a.start_date, some e0, e0 - a.start_date + 1⟩
                : Except RunErr Contribution) = .ok c := h
            rw [Except.ok.injEq] at h'
            subst h'
            refine ⟨Or.inl rfl, le_refl _, ⟨e0, rfl, ?_, le_refl e0⟩, fun _ => rfl⟩
            show a.start_date ≤ e0
            obtain ⟨p, hp⟩ := List.exists_mem_of_ne_nil _ hckNE
            have hp1 := hckS p hp
            have hp2 := hckE e0 hE p hp
            omega

theorem naive_none_start : ∀ (fuel : ℕ) (a : NArgs) (c : Contribution),
    a.end_date = none →
    0 ≤ a.frequency.get_period_length →
    (∀ f, a.final_date = some f → f ≤ a.start_date + a.frequency.get_period_length - 1) →
    naive_contribution fuel a = .ok c →
    (c.start_date = a.start_date ∨ c.start_date - 1 ∈ a.payment_dates) ∧
    (∀ f, a.final_date = some f → c.start_date ≤ f) := by
  intro fuel
  induction fuel with
  | zero => intro a c _ _ _ h; exact absurd h (by simp [naive_contribution])
  | succ n ih =>
    intro a c hE hL hf h
    obtain ⟨hckF, hckNE, hckS, hckE⟩ := naive_ok_checks h
    have hsorted : (a.payment_dates.insertionSort (· ≤ ·)).Sorted (· ≤ ·) :=
      List.sorted_insertionSort _ _
    have hperm : ∀ p : ℤ, p ∈ a.payment_dates.insertionSort (· ≤ ·) ↔ p ∈ a.payment_dates :=
      fun p => (List.perm_insertionSort _ _).mem_iff
    have hsne : a.payment_dates.insertionSort (· ≤ ·) ≠ [] := by
      intro hnil
      have hp := List.perm_insertionSort (· ≤ ·) a.payment_dates
      rw [hnil] at hp
      exact hckNE (List.Perm.nil_eq hp).symm
    simp only [naive_contribution] at h
    generalize hstep : naive_step a = s at h
    unfold naive_step at hstep
    rw [hE] at hstep
    simp only [Option.getD_none] at hstep
    set L := a.frequency.get_period_length with hLdef
    rw [show a.start_date + L - 1 - a.start_date + 1 = L from by ring] at hstep
    set S := a.payment_dates.insertionSort (· ≤ ·) with hSdef
    clear_value S
    have hf2b : a.final_date.getD (a.start_date + L - 1) ≤ a.start_date + L - 1 := by
      cases hFd : a.final_date with
      | none => simp
      | some f => simpa using hf f hFd
    by_cases h1 : a.final_date.getD a.start_date < a.start_date
    · rw [if_pos h1] at hstep
      rw [← hstep] at h
      exact absurd h (by simp)
    rw [if_neg h1] at hstep
    by_cases h2 : a.payment_dates = []
    · exact absurd h2 hckNE
    rw [if_neg h2] at hstep
    by_cases h3 : S.headD 0 < a.start_date
    · rw [if_pos h3] at hstep
      rw [← hstep] at h
      exact absurd h (by simp)
    rw [if_neg h3] at hstep
    rw [if_neg (lt_irrefl (S.getLastD 0))] at hstep
    by_cases h5 : (S.length : ℤ) = L
    · -- the whole-window segment
      rw [if_pos h5] at hstep
      rw [← hstep] at h
      have h' : (Except.ok ⟨a.payment, none, a.start_date, none, L⟩
          : Except RunErr Contribution) = .ok c := h
      rw [Except.ok.injEq] at h'
      subst h'
      refine ⟨Or.inl rfl, fun f hfd => ?_⟩
      rw [hfd] at h1
      simp only [Option.getD_some] at h1
      show a.start_date ≤ f
      omega
    rw [if_neg h5] at hstep
    cases hcfd : calculate_for_duration a.payment S.length L with
    | error e =>
      simp only [hcfd] at hstep
      rw [← hstep] at h
      exact absurd h (by simp)
    | ok rl =>
      obtain ⟨regular, lastv⟩ := rl
      simp only [hcfd] at hstep
      by_cases h7 : S.getLastD 0 < a.start_date + L - 1
      · -- last payment before the period end, no end date: rotate the first payment
        rw [if_pos h7, if_neg (by simp : ¬(((none : Option ℤ)).isSome = true))] at hstep
        rw [← hstep] at h
        have h' : naive_contribution n ⟨a.payment, a.frequency, S.tail ++ [S.headD 0 + L],
            S.headD 0 + 1, none, some (a.final_date.getD (a.start_date + L - 1))⟩ = .ok c := h
        obtain ⟨ih1, ih2⟩ := ih ⟨a.payment, a.frequency, S.tail ++ [S.headD 0 + L],
            S.headD 0 + 1, none, some (a.final_date.getD (a.start_date + L - 1))⟩ c rfl hL
          (fun f' hf' => by
            have hf'' : some (a.final_date.getD (a.start_date + L - 1)) = some f' := hf'
            rw [Option.some.injEq] at hf''
            show f' ≤ S.headD 0 + 1 + L - 1
            omega) h'
        have ih1' : c.start_date = S.headD 0 + 1 ∨
            c.start_date - 1 ∈ S.tail ++ [S.headD 0 + L] := ih1
        have hc2 : c.start_date ≤ a.final_date.getD (a.start_date + L - 1) :=
          ih2 _ rfl
        refine ⟨?_, fun f hfd => ?_⟩
        · rcases ih1' with h' | h'
          · right
            have hce : c.start_date - 1 = S.headD 0 := by omega
            rw [hce]
            exact (hperm _).mp (headD_mem hsne)
          · rcases List.mem_append.mp h' with h' | h'
            · exact Or.inr ((hperm _).mp (List.mem_of_mem_tail h'))
            · simp only [List.mem_singleton] at h'
              exact absurd h' (by omega)
        · rw [hfd] at hc2
          simpa using hc2
      rw [if_neg h7] at hstep
      by_cases h9 : S.headD 0 = a.start_date
      · -- the first payment falls on the start date: drop and rotate it
        rw [if_pos h9] at hstep
        simp only [reduceIte] at hstep
        rw [← hstep] at h
        have h' : naive_contribution n ⟨a.payment, a.frequency, S.tail ++ [S.headD 0 + L],
            a.start_date + 1, none, some (a.final_date.getD (a.start_date + L - 1))⟩ = .ok c := h
        obtain ⟨ih1, ih2⟩ := ih ⟨a.payment, a.frequency, S.tail ++ [S.headD 0 + L],
            a.start_date + 1, none, some (a.final_date.getD (a.start_date + L - 1))⟩ c rfl hL
          (fun f' hf' => by
            have hf'' : some (a.final_date.getD (a.start_date + L - 1)) = some f' := hf'
            rw [Option.some.injEq] at hf''
            show f' ≤ a.start_date + 1 + L - 1
            omega) h'
        have ih1' : c.start_date = a.start_date + 1 ∨
            c.start_date - 1 ∈ S.tail ++ [S.headD 0 + L] := ih1
        have hc2 : c.start_date ≤ a.final_date.getD (a.start_date + L - 1) :=
          ih2 _ rfl
        refine ⟨?_, fun f hfd => ?_⟩
        · rcases ih1' with h' | h'
          · right
            have hce : c.start_date - 1 = a.start_date := by omega
            rw [hce, ← h9]
            exact (hperm _).mp (headD_mem hsne)
          · rcases List.mem_append.mp h' with h' | h'
            · exact Or.inr ((hperm _).mp (List.mem_of_mem_tail h'))
            · simp only [List.mem_singleton] at h'
              exact absurd h' (by omega)
        · rw [hfd] at hc2
          simpa using hc2
      rw [if_neg h9] at hstep
      cases hsim0 : simLoop (roundDpBankers 23 (decDiv (a.payment - lastv.getD regular) regular + 1))
          S (a.start_date - 1) none 0 with
      | mk fpd cum =>
        cases fpd with
        | some date =>
          -- the simulation found a first positive date: shift past it, rotating
          simp only [hsim0] at hstep
          rw [show (decide True) = true from by simp] at hstep
          cases hshift : shiftLoop L true date
              ((S.length + 2) * ((date + L - S.headD 0).toNat + 2)) S with
          | none =>
            simp only [hshift] at hstep
            rw [← hstep] at h
            exact absurd h (by simp)
          | some rest2 =>
            simp only [hshift] at hstep
            rw [← hstep] at h
            have h' : naive_contribution n ⟨a.payment, a.frequency, rest2, date + 1,
                none, some (a.final_date.getD (a.start_date + L - 1))⟩ = .ok c := h
            have hsim' : date = a.start_date - 1 ∨ date ∈ S := by
              rcases simLoop_some_mem _ _ _ _ _ _ _ hsim0 with h'' | h'' | h''
              · exact absurd h'' (by simp)
              · exact Or.inl h''
              · exact Or.inr h''
            have hdge : a.start_date - 1 ≤ date := by
              rcases hsim' with h'' | h''
              · omega
              · have := sorted_headD_le hsorted h''
                omega
            obtain ⟨ih1, ih2⟩ := ih ⟨a.payment, a.frequency, rest2, date + 1,
                none, some (a.final_date.getD (a.start_date + L - 1))⟩ c rfl hL
              (fun f' hf' => by
                have hf'' : some (a.final_date.getD (a.start_date + L - 1)) = some f' := hf'
                rw [Option.some.injEq] at hf''
                show f' ≤ date + 1 + L - 1
                omega) h'
            have ih1' : c.start_date = date + 1 ∨ c.start_date - 1 ∈ rest2 := ih1
            have hc2 : c.start_date ≤ a.final_date.getD (a.start_date + L - 1) :=
              ih2 _ rfl
            refine ⟨?_, fun f hfd => ?_⟩
            · rcases ih1' with h' | h'
              · rcases hsim' with hd | hd
                · exact Or.inl (by omega)
                · right
                  have hce : c.start_date - 1 = date := by omega
                  rw [hce]
                  exact (hperm _).mp hd
              · rcases shiftLoop_true_mem _ _ _ _ _ hshift _ h' with hm | ⟨q, hq, k, hk1, hk2⟩
                · exact Or.inr ((hperm _).mp hm)
                · have hq1 : a.start_date ≤ q := by
                    have := sorted_headD_le hsorted hq
                    omega
                  have hkL : L ≤ (k : ℤ) * L :=
                    le_mul_of_one_le_left hL (by exact_mod_cast hk1)
                  exact absurd hk2 (by omega)
            · rw [hfd] at hc2
              simpa using hc2
        | none =>
          simp only [hsim0] at hstep
          by_cases h12 : cum < 0
          · -- shortfall: drop the first payment
            rw [if_pos h12] at hstep
            cases hS2 : S with
            | nil => exact absurd hS2 hsne
            | cons p rest =>
              simp only [hS2] at hstep
              rw [← hstep] at h
              have h' : naive_contribution n ⟨a.payment, a.frequency, rest, p + 1,
                  none, some (a.final_date.getD (a.start_date + L - 1))⟩ = .ok c := h
              have hfp : S.headD 0 = p := by rw [hS2]; rfl
              have hps : a.start_date ≤ p := by omega
              obtain ⟨ih1, ih2⟩ := ih ⟨a.payment, a.frequency, rest, p + 1,
                  none, some (a.final_date.getD (a.start_date + L - 1))⟩ c rfl hL
                (fun f' hf' => by
                  have hf'' : some (a.final_date.getD (a.start_date + L - 1)) = some f' := hf'
                  rw [Option.some.injEq] at hf''
                  show f' ≤ p + 1 + L - 1
                  omega) h'
              have ih1' : c.start_date = p + 1 ∨ c.start_date - 1 ∈ rest := ih1
              have hc2 : c.start_date ≤ a.final_date.getD (a.start_date + L - 1) :=
                ih2 _ rfl
              refine ⟨?_, fun f hfd => ?_⟩
              · rcases ih1' with h' | h'
                · right
                  have hce : c.start_date - 1 = p := by omega
                  rw [hce]
                  exact (hperm _).mp (by rw [hS2]; exact List.mem_cons_self _ _)
                · exact Or.inr ((hperm _).mp (by rw [hS2]; exact List.mem_cons_of_mem _ h'))
              · rw [hfd] at hc2
                simpa using hc2
          · -- no shortfall: final segment
            rw [if_neg h12] at hstep
            rw [← hstep] at h
            have h' : (Except.ok ⟨regular, lastv, a.start_date, none, L⟩
                : Except RunErr Contribution) = .ok c := h
            rw [Except.ok.injEq] at h'
            subst h'
            refine ⟨Or.inl rfl, fun f hfd => ?_⟩
            rw [hfd] at h1
            simp only [Option.getD_some] at h1
            show a.start_date ≤ f
            omega

theorem calcLoop_nil {value : Dec} {freq : Frequency} {now : ℤ} {fuelN fuelL : ℕ}
    {sd : ℤ} {ed : Option ℤ} {cs : List Contribution}
    (h : calcLoop value freq now fuelN fuelL [] sd ed = .ok cs) : cs = [] := by
  cases fuelL with
  | zero => exact absurd h (by simp [calcLoop])
  | succ m =>
    simp only [calcLoop] at h
    rw [if_pos trivial] at h
    rw [Except.ok.injEq] at h
    exact h.symm

theorem calcLoop_chain (value : Dec) (freq : Frequency) (now : ℤ) (fuelN : ℕ)
    (hL : 0 ≤ freq.get_period_length) :
    ∀ (fuelL : ℕ) (P : List ℤ) (sd : ℤ) (ed : Option ℤ) (cs : List Contribution),
    calcLoop value freq now fuelN fuelL P sd ed = .ok cs →
    cs.Chain' (fun x y => x.end_date = some (y.start_date - 1) ∧ x.start_date < y.start_date) ∧
    (∀ e, ed = some e → e ∈ P → ∀ x, cs.getLast? = some x →
        x.end_date = some e ∧ x.start_date ≤ e) := by
  intro fuelL
  induction fuelL with
  | zero => intro P sd ed cs h; exact absurd h (by simp [calcLoop])
  | succ fuel ihL =>
    intro P sd ed cs h
    simp only [calcLoop] at h
    by_cases hP : P = []
    · rw [if_pos hP] at h
      rw [Except.ok.injEq] at h
      subst h
      exact ⟨List.chain'_nil, fun e _ hmem x hx => absurd hx (by simp)⟩
    rw [if_neg hP] at h
    cases hna : naive_contribution fuelN ⟨value, freq, P, sd, ed, none⟩ with
    | error e => simp only [hna] at h; exact absurd h (by simp)
    | ok c =>
      simp only [hna] at h
      cases hrec : calcLoop value freq now fuelN fuel (P.filter fun p => p < c.start_date) now
          (some (c.start_date - 1)) with
      | error e => simp only [hrec] at h; exact absurd h (by simp)
      | ok rest =>
        simp only [hrec] at h
        rw [Except.ok.injEq] at h
        subst h
        obtain ⟨hckF, hckNE, hckS, hckE⟩ := naive_ok_checks hna
        have hckS' : ∀ p ∈ P, sd ≤ p := hckS
        have hckE' : ∀ e, ed = some e → ∀ p ∈ P, p ≤ e := hckE
        have hconj1 : c.start_date = sd ∨ c.start_date - 1 ∈ P := by
          cases hed : ed with
          | none =>
            subst hed
            exact (naive_none_start fuelN ⟨value, freq, P, sd, none, none⟩ c rfl hL
              (fun f hf => absurd hf (by simp)) hna).1
          | some e0 =>
            subst hed
            exact (naive_some_bounds fuelN ⟨value, freq, P, sd, some e0, none⟩ e0 c rfl
              (fun p hp => hckE' e0 rfl p hp) hna).1
        obtain ⟨ihC, ihE⟩ := ihL (P.filter fun p => p < c.start_date) now
          (some (c.start_date - 1)) rest hrec
        constructor
        · rw [List.chain'_append]
          refine ⟨ihC, List.chain'_singleton _, ?_⟩
          intro x hx y hy
          rw [Option.mem_def, List.head?_cons, Option.some.injEq] at hy
          subst hy
          rw [Option.mem_def] at hx
          rcases hconj1 with hcs | hcm
          · have hfe : (P.filter fun p => p < c.start_date) = [] := by
              rw [List.filter_eq_nil_iff]
              intro q hq
              simp only [decide_eq_true_eq, not_lt]
              have := hckS' q hq
              omega
            rw [hfe] at hrec
            have hre := calcLoop_nil hrec
            rw [hre] at hx
            exact absurd hx (by simp)
          · have hmf : c.start_date - 1 ∈ P.filter fun p => p < c.start_date := by
              rw [List.mem_filter]
              exact ⟨hcm, by simp only [decide_eq_true_eq]; omega⟩
            obtain ⟨hxe, hxs⟩ := ihE (c.start_date - 1) rfl hmf x hx
            exact ⟨hxe, by omega⟩
        · intro e he hmem x hlast
          subst he
          rw [List.getLast?_concat, Option.some.injEq] at hlast
          subst hlast
          obtain ⟨hc1, hc2, ⟨e1, he1, he1a, he1b⟩, hconj4⟩ :=
            naive_some_bounds fuelN ⟨value, freq, P, sd, some e, none⟩ e c rfl
              (fun p hp => hckE' e rfl p hp) hna
          have hce : c.end_date = some e := hconj4 hmem
          refine ⟨hce, ?_⟩
          rw [hce] at he1
          rw [Option.some.injEq] at he1
          omega

/-- C6: every successfully built schedule is chronologically ordered and
contiguous: for each consecutive pair of segments, the earlier segment's end
date is the day before the later segment's start date. -/
theorem calculate_chain_contiguous (value : Dec) (freq : Frequency) (sd : ℤ)
    (ed : Option ℤ) (now : ℤ) (fuelN fuelL : ℕ) (cs : List Contribution)
    (h : calculate value freq sd ed now fuelN fuelL = .ok cs) :
    cs.Chain' (fun x y => x.end_date = some (y.start_date - 1) ∧ x.start_date < y.start_date) := by
  unfold calculate at h
  by_cases hs : sd < now
  · rw [if_pos hs] at h
    exact absurd h (by simp)
  rw [if_neg hs] at h
  cases hpd : freq.get_payment_dates sd ed with
  | none => simp only [hpd] at h; exact absurd h (by simp)
  | some payments =>
    simp only [hpd] at h
    cases ed with
    | none =>
      cases freq with
      | once =>
        exact (calcLoop_chain value _ now fuelN (perLen_nonneg _) fuelL payments now (some sd) cs h).1
      | daily d =>
        exact (calcLoop_chain value _ now fuelN (perLen_nonneg _) fuelL payments sd none cs h).1
      | weekly w ds =>
        exact (calcLoop_chain value _ now fuelN (perLen_nonneg _) fuelL payments sd none cs h).1
      | monthlyDate m ds =>
        exact (calcLoop_chain value _ now fuelN (perLen_nonneg _) fuelL payments sd none cs h).1
      | monthlyDay m nth dr =>
        exact (calcLoop_chain value _ now fuelN (perLen_nonneg _) fuelL payments sd none cs h).1
      | yearly y ms nth dr =>
        exact (calcLoop_chain value _ now fuelN (perLen_nonneg _) fuelL payments sd none cs h).1
    | some e =>
      cases freq with
      | once =>
        exact (calcLoop_chain value _ now fuelN (perLen_nonneg _) fuelL payments now (some sd) cs h).1
      | daily d =>
        cases hlp : payments.getLast? with
        | none => simp only [hlp] at h; exact absurd h (by simp)
        | some lp =>
          simp only [hlp] at h
          exact (calcLoop_chain value _ now fuelN (perLen_nonneg _) fuelL payments now (some lp) cs h).1
      | weekly w ds =>
        cases hlp : payments.getLast? with
        | none => simp only [hlp] at h; exact absurd h (by simp)
        | some lp =>
          simp only [hlp] at h
          exact (calcLoop_chain value _ now fuelN (perLen_nonneg _) fuelL payments now (some lp) cs h).1
      | monthlyDate m ds =>
        cases hlp : payments.getLast? with
        | none => simp only [hlp] at h; exact absurd h (by simp)
        | some lp =>
          simp only [hlp] at h
          exact (calcLoop_chain value _ now fuelN (perLen_nonneg _) fuelL payments now (some lp) cs h).1
      | monthlyDay m nth dr =>
        cases hlp : payments.getLast? with
        | none => simp only [hlp] at h; exact absurd h (by simp)
        | some lp =>
          simp only [hlp] at h
          exact (calcLoop_chain value _ now fuelN (perLen_nonneg _) fuelL payments now (some lp) cs h).1
      | yearly y ms nth dr =>
        cases hlp : payments.getLast? with
        | none => simp only [hlp] at h; exact absurd h (by simp)
        | some lp =>
          simp only [hlp] at h
          exact (calcLoop_chain value _ now fuelN (perLen_nonneg _) fuelL payments now (some lp) cs h).1

/-- Witness for `calculate_chain_contiguous` on a schedule with two segments. -/
theorem calculate_chain_contiguous_witness :
    calculate 1 (.daily 2) (daysFromCivil 2000 1 1) (some (daysFromCivil 2000 1 3))
        (daysFromCivil 2000 1 1) 40 40
      = .ok [⟨1, none, daysFromCivil 2000 1 1, some (daysFromCivil 2000 1 1), 1⟩,
             ⟨1 / 2, none, daysFromCivil 2000 1 2, some (daysFromCivil 2000 1 3), 2⟩]
    ∧ ([⟨1, none, daysFromCivil 2000 1 1, some (daysFromCivil 2000 1 1), 1⟩,
        ⟨1 / 2, none, daysFromCivil 2000 1 2, some (daysFromCivil 2000 1 3), 2⟩]
        : List Contribution).Chain'
        (fun x y => x.end_date = some (y.start_date - 1) ∧ x.start_date < y.start_date) :=
  ⟨by decide,
   calculate_chain_contiguous 1 (.daily 2) (daysFromCivil 2000 1 1)
     (some (daysFromCivil 2000 1 3)) (daysFromCivil 2000 1 1) 40 40 _ (by decide)⟩

end BudgetModel
